import Mathlib

/-!
Verification of the UVM toolchain: the assembler's field packing and word
composition (src/asm.py, src/uvm_asm.py) and the interpreter's
fetch-decode-execute loop (src/uvm_run.py), embedded shallowly.

Python integers are modelled by Int (arbitrary precision); packed bit
patterns and byte values by Nat.  Fallible operations (ValueError,
IndexError, the interpreter's fatal errors) are modelled by Option and
explicit error results.
-/

namespace UVM

/-- Opcode mnemonics: the four canonical instruction names. -/
inductive Op
  | LC
  | LDM
  | STM
  | GE
deriving DecidableEq, Repr

/-- Field kind: register argument (rN) or plain immediate, as in SPECS. -/
inductive Kind
  | reg
  | imm
deriving DecidableEq, Repr

/-- One field entry of SPECS: (name, shift, bits, kind). -/
structure FieldSpec where
  name : String
  shift : Nat
  bits : Nat
  kind : Kind
deriving DecidableEq, Repr

/-- SPECS from asm.py lines 15-20: opcode value A, size in bytes, field list.
(The print_order component is diagnostics only and is omitted.) -/
def SPECS : Op → Nat × Nat × List FieldSpec
  | .LC  => (0, 4, [⟨"B", 4, 7, .reg⟩, ⟨"C", 11, 20, .imm⟩])
  | .LDM => (13, 5, [⟨"B", 4, 15, .imm⟩, ⟨"C", 19, 7, .reg⟩, ⟨"D", 26, 7, .reg⟩])
  | .STM => (9, 3, [⟨"B", 4, 10, .imm⟩, ⟨"C", 14, 7, .reg⟩])
  | .GE  => (15, 4, [⟨"B", 4, 7, .reg⟩, ⟨"C", 11, 10, .imm⟩, ⟨"D", 21, 7, .reg⟩])

/-- fit_bits from asm.py lines 45-52 (identical in uvm_asm.py lines 37-44):
a negative value is converted to two's complement within the given width,
then the result must lie in [0, 2^bits); otherwise ValueError (none). -/
def fit_bits (x : Int) (bits : Nat) : Option Nat :=
  let y : Int := if x < 0 then (2 ^ bits : Int) + x else x
  if 0 ≤ y ∧ y < (2 ^ bits : Int) then some y.toNat else none

/-- The argument reordering of parse, asm.py lines 75-85: LDM surface
operands (a0,a1,a2) become [a2,a0,a1]; GE operands become [a1,a2,a0];
other opcodes keep their order.  A wrong argument count for LDM/GE is the
ValueError of lines 77/81 (none). -/
def reorderArgs (op : Op) (args : List Int) : Option (List Int) :=
  match op with
  | .LDM =>
    match args with
    | [a0, a1, a2] => some [a2, a0, a1]
    | _ => none
  | .GE =>
    match args with
    | [a0, a1, a2] => some [a1, a2, a0]
    | _ => none
  | _ => some args

/-- The packing loop of parse, asm.py lines 91-94: walk zip(args, fields),
record each resolved value under its field name, and OR the packed value
into the code word at the field's shift.  Operand tokens are taken already
resolved to integers (reg strips the r prefix, num parses the literal;
both yield the integer used here). -/
def packLoop : List Int → List FieldSpec → List (String × Int) → Nat →
    Option (List (String × Int) × Nat)
  | [], [], ins, code => some (ins, code)
  | a :: args, f :: fields, ins, code =>
    match fit_bits a f.bits with
    | none => none
    | some p => packLoop args fields (ins ++ [(f.name, a)]) (code ||| p <<< f.shift)
  | _, _, _, _ => none

/-- code.to_bytes(size, "little"), written LSB first; overflow of the byte
count is Python's OverflowError (none, unreachable for SPECS layouts). -/
def to_bytes_le_core : Nat → Nat → List Nat
  | 0, _ => []
  | size + 1, code => code % 256 :: to_bytes_le_core size (code / 256)

def to_bytes_le (size code : Nat) : Option (List Nat) :=
  if code < 2 ^ (8 * size) then some (to_bytes_le_core size code) else none

/-- The assembler's instruction record: opcode, A, the resolved field
values keyed by name (ins[name] = v), and the encoded bytes. -/
structure Ins where
  op : Op
  A : Nat
  fields : List (String × Int)
  bytes : List Nat
deriving DecidableEq, Repr

/-- parse from asm.py lines 54-98, after mnemonic resolution, with operand
tokens already resolved to integers: reorder LDM/GE arguments, check the
argument count, pack every field starting from code = A, and serialize the
word little-endian into the opcode's fixed byte size. -/
def parse (op : Op) (args0 : List Int) : Option Ins :=
  let (A, size, fields) := SPECS op
  match reorderArgs op args0 with
  | none => none
  | some args =>
    if args.length = fields.length then
      match packLoop args fields [] A with
      | none => none
      | some (fvals, code) =>
        match to_bytes_le size code with
        | none => none
        | some bytes => some ⟨op, A, fvals, bytes⟩
    else none

/-- SIZES from uvm_run.py line 5: instruction byte size per opcode value. -/
def SIZES (a : Nat) : Option Nat :=
  if a = 0 then some 4
  else if a = 9 then some 3
  else if a = 13 then some 5
  else if a = 15 then some 4
  else none

/-- to_signed from uvm_run.py lines 7-11. -/
def to_signed (x : Nat) (bits : Nat) : Int :=
  if x ≥ 2 ^ (bits - 1) then (x : Int) - (2 ^ bits : Int) else (x : Int)

/-- int.from_bytes(raw, "little"). -/
def from_bytes_le (raw : List Nat) : Nat :=
  raw.foldr (fun b acc => b + 256 * acc) 0

/-- The result of decode, uvm_run.py lines 13-39: per-opcode field record.
Signed fields (C of LC, B of LDM) come out as Int, the rest as Nat. -/
inductive Decoded
  | LC (B : Nat) (C : Int)
  | STM (B : Nat) (C : Nat)
  | LDM (B : Int) (C : Nat) (D : Nat)
  | GE (B : Nat) (C : Nat) (D : Nat)
  | UNKNOWN (A : Nat)
deriving DecidableEq, Repr

/-- decode from uvm_run.py lines 13-39. -/
def decode (opcode : Nat) (raw : List Nat) : Decoded :=
  let code := from_bytes_le raw
  if opcode = 0 then
    .LC ((code >>> 4) &&& 0x7F) (to_signed ((code >>> 11) &&& ((1 <<< 20) - 1)) 20)
  else if opcode = 9 then
    .STM ((code >>> 4) &&& 0x3FF) ((code >>> 14) &&& 0x7F)
  else if opcode = 13 then
    .LDM (to_signed ((code >>> 4) &&& ((1 <<< 15) - 1)) 15)
      ((code >>> 19) &&& 0x7F) ((code >>> 26) &&& 0x7F)
  else if opcode = 15 then
    .GE ((code >>> 4) &&& 0x7F) ((code >>> 11) &&& 0x3FF) ((code >>> 21) &&& 0x7F)
  else
    .UNKNOWN opcode

/-- Interpreter state: register file, flat memory, program counter. -/
structure State where
  regs : List Int
  mem : List Int
  pc : Nat
deriving DecidableEq, Repr

/-- The interpreter's fatal errors: the two ValueErrors it raises itself
(unknown opcode, LDM out of bounds), the unreachable NotImplementedError,
and Python's IndexError for an unguarded list access out of range. -/
inductive RunError
  | unknownOp (A : Nat) (pc : Nat)
  | outOfBounds (addr : Int)
  | notImplemented (A : Nat)
  | indexError
deriving DecidableEq, Repr

/-- Python list read l[i] for a nonnegative index: IndexError (none) when
i is out of range. -/
def getItem (l : List Int) (i : Nat) : Option Int :=
  l.get? i

/-- Python list assignment l[i] = v for a nonnegative index: IndexError
(none) when i is out of range. -/
def setItem (l : List Int) (i : Nat) (v : Int) : Option (List Int) :=
  if i < l.length then some (l.set i v) else none

/-- The fetch of uvm_run.py line 55: bytes((mem[pc+i] & 0xFF) for i in
range(size)), built front to back. -/
def fetch (mem : List Int) (pc : Nat) : Nat → Option (List Nat)
  | 0 => some []
  | size + 1 =>
    match getItem mem pc with
    | none => none
    | some x =>
      match fetch mem (pc + 1) size with
      | none => none
      | some rest => some ((x % 256).toNat :: rest)

inductive ExecResult
  | ok (s : State)
  | err (e : RunError)
deriving DecidableEq, Repr

/-- The execute stage, uvm_run.py lines 59-80, including the final
pc += size.  List accesses are checked exactly where Python would raise
IndexError; LDM carries its own explicit bounds check (lines 69-70). -/
def execIns (s : State) (d : Decoded) (size : Nat) : ExecResult :=
  match d with
  | .LC B C =>
    match setItem s.regs B C with
    | none => .err .indexError
    | some regs => .ok ⟨regs, s.mem, s.pc + size⟩
  | .STM B C =>
    match getItem s.regs C with
    | none => .err .indexError
    | some v =>
      match setItem s.mem B v with
      | none => .err .indexError
      | some mem => .ok ⟨s.regs, mem, s.pc + size⟩
  | .LDM B C D =>
    match getItem s.regs D with
    | none => .err .indexError
    | some rD =>
      let addr : Int := rD + B
      if 0 ≤ addr ∧ addr < (s.mem.length : Int) then
        match getItem s.mem addr.toNat with
        | none => .err .indexError
        | some v =>
          match setItem s.regs C v with
          | none => .err .indexError
          | some regs => .ok ⟨regs, s.mem, s.pc + size⟩
      else .err (.outOfBounds addr)
  | .GE B C D =>
    match getItem s.regs B, getItem s.mem C with
    | some rB, some mC =>
      match setItem s.regs D (if rB ≥ mC then 1 else 0) with
      | none => .err .indexError
      | some regs => .ok ⟨regs, s.mem, s.pc + size⟩
    | _, _ => .err .indexError
  | .UNKNOWN A => .err (.notImplemented A)

inductive FetchOut
  | ok (d : Decoded) (size : Nat)
  | err (e : RunError)
deriving DecidableEq, Repr

/-- The fetch/decode stage of one loop iteration, uvm_run.py lines 50-56:
opcode nibble from mem[pc], size lookup (unknown opcode is fatal), raw
byte fetch, decode. -/
def fetchDecode (s : State) : FetchOut :=
  match getItem s.mem s.pc with
  | none => .err .indexError
  | some m0 =>
    let opcode := (m0 % 16).toNat
    match SIZES opcode with
    | none => .err (.unknownOp opcode s.pc)
    | some size =>
      match fetch s.mem s.pc size with
      | none => .err .indexError
      | some raw => .ok (decode opcode raw) size

/-- Outcome of a run: normal completion, fatal error (carrying the state
just before the faulting instruction), or fuel exhaustion of the model. -/
inductive RunResult
  | done (s : State)
  | err (e : RunError) (s : State)
  | outOfFuel (s : State)
deriving DecidableEq, Repr

/-- True only for the fuel-exhaustion marker, and, for a normal
completion, records whether pc left the program region. -/
def RunResult.settled (progLen : Nat) : RunResult → Bool
  | .done s => decide (progLen ≤ s.pc)
  | .err _ _ => true
  | .outOfFuel _ => false

/-- True exactly on a Python IndexError outcome. -/
def RunResult.isIndexErr : RunResult → Bool
  | .err .indexError _ => true
  | _ => false

/-- run_program from uvm_run.py lines 41-80, with explicit fuel (the
source loop has no bound of its own) and a trace of every pc value at
which an instruction fetch was performed. -/
def runFuel : Nat → Nat → State → RunResult × List Nat
  | 0, _, s => (.outOfFuel s, [])
  | fuel + 1, progLen, s =>
    if s.pc < progLen then
      match fetchDecode s with
      | .err e => (.err e s, [s.pc])
      | .ok d size =>
        match execIns s d size with
        | .err e => (.err e s, [s.pc])
        | .ok s1 =>
          ((runFuel fuel progLen s1).1, s.pc :: (runFuel fuel progLen s1).2)
    else (.done s, [])

/-- The memory set up by main, uvm_run.py lines 99-103: program bytes at
address 0, zero cells up to max(4096, len(prog) + 2048). -/
def load_memory (prog : List Nat) : List Int :=
  prog.map Int.ofNat ++
    List.replicate (max 4096 (prog.length + 2048) - prog.length) 0

/-- The initial interpreter state of a run started by main: 128 zeroed
registers (uvm_run.py line 43), loaded memory, pc = 0. -/
def initState (prog : List Nat) : State :=
  ⟨List.replicate 128 0, load_memory prog, 0⟩

/-! ### Bit-arithmetic helper lemmas -/

/-- ORing a value shifted past the bits already occupied is addition. -/
theorem lor_shift {a : Nat} (b k : Nat) (h : a < 2 ^ k) :
    a ||| b <<< k = a + b * 2 ^ k := by
  have h1 : 2 ^ k * b + a = 2 ^ k * b ||| a := Nat.mul_add_lt_is_or h b
  rw [Nat.shiftLeft_eq, Nat.or_comm, Nat.mul_comm b (2 ^ k), ← h1]
  omega

/-- Definitional unfolding of fit_bits with the let inlined. -/
theorem fit_bits_eq (x : Int) (bits : Nat) :
    fit_bits x bits =
      if 0 ≤ (if x < 0 then (2 ^ bits : Int) + x else x) ∧
          (if x < 0 then (2 ^ bits : Int) + x else x) < (2 ^ bits : Int)
      then some (if x < 0 then (2 ^ bits : Int) + x else x).toNat
      else none := rfl

/-- A successful fit_bits result lies below 2^bits. -/
theorem fit_bits_lt {x : Int} {bits p : Nat} (h : fit_bits x bits = some p) :
    p < 2 ^ bits := by
  unfold fit_bits at h
  set y : Int := if x < 0 then (2 ^ bits : Int) + x else x with hy
  by_cases hc : 0 ≤ y ∧ y < (2 ^ bits : Int)
  · rw [if_pos hc] at h
    have hp : p = y.toNat := by exact (Option.some.injEq _ _).mp h.symm
    have h2 : ((2 ^ bits : Nat) : Int) = (2 ^ bits : Int) := by push_cast; ring
    omega
  · rw [if_neg hc] at h
    exact absurd h (by simp)

/-- fit_bits on a nonnegative in-range value is the identity. -/
theorem fit_bits_unsigned {x : Int} {bits : Nat} (h0 : 0 ≤ x)
    (h1 : x < (2 ^ bits : Int)) : fit_bits x bits = some x.toNat := by
  unfold fit_bits
  rw [if_neg (not_lt.mpr h0)]
  exact if_pos ⟨h0, h1⟩

/-- fit_bits then to_signed is the identity on the signed range
[-2^(bits-1), 2^(bits-1)). -/
theorem fit_bits_signed {x : Int} {bits : Nat} (hb : 1 ≤ bits)
    (h0 : -((2 ^ (bits - 1) : Nat) : Int) ≤ x)
    (h1 : x < ((2 ^ (bits - 1) : Nat) : Int)) :
    ∃ p, fit_bits x bits = some p ∧ p < 2 ^ bits ∧ to_signed p bits = x := by
  obtain ⟨k, hk⟩ : ∃ k, bits = k + 1 := ⟨bits - 1, by omega⟩
  subst hk
  simp only [Nat.add_sub_cancel] at h0 h1 ⊢
  have hpow : ((2 ^ (k + 1) : Nat) : Int) = 2 * ((2 ^ k : Nat) : Int) := by
    push_cast
    ring
  have hpowN : (2 ^ (k + 1) : Nat) = 2 * 2 ^ k := by ring
  have hpime : ((2 ^ (k + 1) : Nat) : Int) = (2 ^ (k + 1) : Int) := by push_cast; ring
  by_cases hneg : x < 0
  · refine ⟨(2 ^ (k + 1) + x).toNat, ?_, by omega, ?_⟩
    · unfold fit_bits
      rw [if_pos hneg, if_pos (by constructor <;> omega)]
    · unfold to_signed
      simp only [Nat.add_sub_cancel]
      rw [if_pos (by omega)]
      omega
  · refine ⟨x.toNat, ?_, by omega, ?_⟩
    · unfold fit_bits
      rw [if_neg hneg]
      exact if_pos ⟨by omega, by omega⟩
    · unfold to_signed
      simp only [Nat.add_sub_cancel]
      rw [if_neg (by omega)]
      omega

/-- Deserializing a little-endian serialization recovers the word. -/
theorem from_to_bytes : ∀ (size code : Nat), code < 2 ^ (8 * size) →
    from_bytes_le (to_bytes_le_core size code) = code := by
  intro size
  induction size with
  | zero =>
    intro code h
    simp [to_bytes_le_core, from_bytes_le] at h ⊢
    omega
  | succ n ih =>
    intro code h
    have hsplit : 2 ^ (8 * (n + 1)) = 2 ^ (8 * n) * 256 := by
      rw [Nat.mul_succ, pow_add]
      norm_num
    have hdiv : code / 256 < 2 ^ (8 * n) := by
      rw [hsplit] at h
      omega
    simp only [to_bytes_le_core, from_bytes_le, List.foldr_cons]
    have := ih (code / 256) hdiv
    unfold from_bytes_le at this
    rw [this]
    omega

/-- The first serialized byte is the word modulo 256. -/
theorem headD_to_bytes (size code : Nat) :
    (to_bytes_le_core (size + 1) code).headD 0 = code % 256 := rfl

/-- parse on LC with successful packing of both fields. -/
theorem parse_LC {B C : Int} {pB pC : Nat}
    (hB : fit_bits B 7 = some pB) (hC : fit_bits C 20 = some pC) :
    parse .LC [B, C] =
      some ⟨.LC, 0, [("B", B), ("C", C)],
        to_bytes_le_core 4 (pB * 2 ^ 4 + pC * 2 ^ 11)⟩ := by
  have hB7 := fit_bits_lt hB
  have hC20 := fit_bits_lt hC
  have hlt : (0 : Nat) ||| pB <<< 4 < 2 ^ 11 := by
    rw [Nat.zero_or, Nat.shiftLeft_eq]
    norm_num at hB7 ⊢
    omega
  have hcode : ((0 : Nat) ||| pB <<< 4) ||| pC <<< 11 = pB * 2 ^ 4 + pC * 2 ^ 11 := by
    rw [lor_shift pC 11 hlt, Nat.zero_or, Nat.shiftLeft_eq]
  have hbound : pB * 2 ^ 4 + pC * 2 ^ 11 < 2 ^ (8 * 4) := by
    norm_num at hB7 hC20 ⊢
    omega
  simp only [parse, SPECS, reorderArgs, packLoop, hB, hC, List.nil_append,
    List.append_nil, List.singleton_append, List.length_cons, List.length_nil,
    to_bytes_le, hcode, if_pos hbound]
  rfl

/-- parse on STM with successful packing of both fields. -/
theorem parse_STM {B C : Int} {pB pC : Nat}
    (hB : fit_bits B 10 = some pB) (hC : fit_bits C 7 = some pC) :
    parse .STM [B, C] =
      some ⟨.STM, 9, [("B", B), ("C", C)],
        to_bytes_le_core 3 (9 + pB * 2 ^ 4 + pC * 2 ^ 14)⟩ := by
  have hB10 := fit_bits_lt hB
  have hC7 := fit_bits_lt hC
  have e1 : (9 : Nat) ||| pB <<< 4 = 9 + pB * 2 ^ 4 := lor_shift pB 4 (by norm_num)
  have hlt : 9 + pB * 2 ^ 4 < 2 ^ 14 := by
    norm_num at hB10 ⊢
    omega
  have e2 : (9 + pB * 2 ^ 4) ||| pC <<< 14 = 9 + pB * 2 ^ 4 + pC * 2 ^ 14 :=
    lor_shift pC 14 hlt
  have hbound : 9 + pB * 2 ^ 4 + pC * 2 ^ 14 < 2 ^ (8 * 3) := by
    norm_num at hB10 hC7 ⊢
    omega
  simp only [parse, SPECS, reorderArgs, packLoop, hB, hC, List.nil_append,
    List.append_nil, List.singleton_append, List.length_cons, List.length_nil,
    to_bytes_le, e1, e2, if_pos hbound]
  rfl

/-- parse on LDM (surface operand order rC, rD, B) with successful packing. -/
theorem parse_LDM {c d b : Int} {pB pC pD : Nat}
    (hB : fit_bits b 15 = some pB) (hC : fit_bits c 7 = some pC)
    (hD : fit_bits d 7 = some pD) :
    parse .LDM [c, d, b] =
      some ⟨.LDM, 13, [("B", b), ("C", c), ("D", d)],
        to_bytes_le_core 5 (13 + pB * 2 ^ 4 + pC * 2 ^ 19 + pD * 2 ^ 26)⟩ := by
  have h1 := fit_bits_lt hB
  have h2 := fit_bits_lt hC
  have h3 := fit_bits_lt hD
  have e1 : (13 : Nat) ||| pB <<< 4 = 13 + pB * 2 ^ 4 := lor_shift pB 4 (by norm_num)
  have e2 : (13 + pB * 2 ^ 4) ||| pC <<< 19 = 13 + pB * 2 ^ 4 + pC * 2 ^ 19 :=
    lor_shift pC 19 (by norm_num at h1 ⊢; omega)
  have e3 : (13 + pB * 2 ^ 4 + pC * 2 ^ 19) ||| pD <<< 26 =
      13 + pB * 2 ^ 4 + pC * 2 ^ 19 + pD * 2 ^ 26 :=
    lor_shift pD 26 (by norm_num at h1 h2 ⊢; omega)
  have hbound : 13 + pB * 2 ^ 4 + pC * 2 ^ 19 + pD * 2 ^ 26 < 2 ^ (8 * 5) := by
    norm_num at h1 h2 h3 ⊢
    omega
  simp only [parse, SPECS, reorderArgs, packLoop, hB, hC, hD, List.nil_append,
    List.append_nil, List.singleton_append, List.cons_append,
    List.length_cons, List.length_nil, to_bytes_le, e1, e2, e3, if_pos hbound]
  rfl

/-- parse on GE (surface operand order rD, rB, C) with successful packing. -/
theorem parse_GE {d b c : Int} {pB pC pD : Nat}
    (hB : fit_bits b 7 = some pB) (hC : fit_bits c 10 = some pC)
    (hD : fit_bits d 7 = some pD) :
    parse .GE [d, b, c] =
      some ⟨.GE, 15, [("B", b), ("C", c), ("D", d)],
        to_bytes_le_core 4 (15 + pB * 2 ^ 4 + pC * 2 ^ 11 + pD * 2 ^ 21)⟩ := by
  have h1 := fit_bits_lt hB
  have h2 := fit_bits_lt hC
  have h3 := fit_bits_lt hD
  have e1 : (15 : Nat) ||| pB <<< 4 = 15 + pB * 2 ^ 4 := lor_shift pB 4 (by norm_num)
  have e2 : (15 + pB * 2 ^ 4) ||| pC <<< 11 = 15 + pB * 2 ^ 4 + pC * 2 ^ 11 :=
    lor_shift pC 11 (by norm_num at h1 ⊢; omega)
  have e3 : (15 + pB * 2 ^ 4 + pC * 2 ^ 11) ||| pD <<< 21 =
      15 + pB * 2 ^ 4 + pC * 2 ^ 11 + pD * 2 ^ 21 :=
    lor_shift pD 21 (by norm_num at h1 h2 ⊢; omega)
  have hbound : 15 + pB * 2 ^ 4 + pC * 2 ^ 11 + pD * 2 ^ 21 < 2 ^ (8 * 4) := by
    norm_num at h1 h2 h3 ⊢
    omega
  simp only [parse, SPECS, reorderArgs, packLoop, hB, hC, hD, List.nil_append,
    List.append_nil, List.singleton_append, List.cons_append,
    List.length_cons, List.length_nil, to_bytes_le, e1, e2, e3, if_pos hbound]
  rfl

/-- Masking with a low-bits mask is reduction modulo the corresponding
power of two. -/
theorem and_15 (x : Nat) : x &&& 15 = x % 16 := by
  have h := Nat.and_pow_two_sub_one_eq_mod x 4
  norm_num at h
  exact h

theorem and_127 (x : Nat) : x &&& 127 = x % 128 := by
  have h := Nat.and_pow_two_sub_one_eq_mod x 7
  norm_num at h
  exact h

theorem and_1023 (x : Nat) : x &&& 1023 = x % 1024 := by
  have h := Nat.and_pow_two_sub_one_eq_mod x 10
  norm_num at h
  exact h

theorem and_32767 (x : Nat) : x &&& 32767 = x % 32768 := by
  have h := Nat.and_pow_two_sub_one_eq_mod x 15
  norm_num at h
  exact h

theorem and_1048575 (x : Nat) : x &&& 1048575 = x % 1048576 := by
  have h := Nat.and_pow_two_sub_one_eq_mod x 20
  norm_num at h
  exact h

/-- decode at opcode 0 (LC) in div/mod form. -/
theorem decode_LC_eq (raw : List Nat) :
    decode 0 raw = .LC (from_bytes_le raw / 16 % 128)
      (to_signed (from_bytes_le raw / 2048 % 1048576) 20) := by
  simp [decode, Nat.shiftRight_eq_div_pow, and_127, and_1048575]

/-- decode at opcode 9 (STM) in div/mod form. -/
theorem decode_STM_eq (raw : List Nat) :
    decode 9 raw = .STM (from_bytes_le raw / 16 % 1024)
      (from_bytes_le raw / 16384 % 128) := by
  simp [decode, Nat.shiftRight_eq_div_pow, and_127, and_1023]

/-- decode at opcode 13 (LDM) in div/mod form. -/
theorem decode_LDM_eq (raw : List Nat) :
    decode 13 raw = .LDM (to_signed (from_bytes_le raw / 16 % 32768) 15)
      (from_bytes_le raw / 524288 % 128) (from_bytes_le raw / 67108864 % 128) := by
  simp [decode, Nat.shiftRight_eq_div_pow, and_127, and_32767]

/-- decode at opcode 15 (GE) in div/mod form. -/
theorem decode_GE_eq (raw : List Nat) :
    decode 15 raw = .GE (from_bytes_le raw / 16 % 128)
      (from_bytes_le raw / 2048 % 1024) (from_bytes_le raw / 2097152 % 128) := by
  simp [decode, Nat.shiftRight_eq_div_pow, and_127, and_1023]

/-- The low nibble of the first serialized byte is the word modulo 16. -/
theorem first_byte_nibble (size code : Nat) (h : size ≠ 0) :
    ((to_bytes_le_core size code).headD 0) &&& 15 = code % 16 := by
  obtain ⟨n, rfl⟩ : ∃ n, size = n + 1 := ⟨size - 1, by omega⟩
  rw [headD_to_bytes, and_15]
  exact Nat.mod_mod_of_dvd code (by norm_num)

/-- Claim C1: encode/decode round-trip for all four opcodes on every
in-range field assignment (signed fields C of LC and B of LDM over their
full two's-complement range, unsigned fields over [0, 2^bits)): decoding
the assembler's packed bytes recovers exactly the original field values. -/
theorem roundtrip_encode_decode :
    (∀ B C : Int, 0 ≤ B → B < 2 ^ 7 → -(2 ^ 19) ≤ C → C < 2 ^ 19 →
      ∃ ins, parse .LC [B, C] = some ins ∧
        decode ((ins.bytes.headD 0) &&& 0xF) ins.bytes = .LC B.toNat C) ∧
    (∀ c d b : Int, -(2 ^ 14) ≤ b → b < 2 ^ 14 → 0 ≤ c → c < 2 ^ 7 →
      0 ≤ d → d < 2 ^ 7 →
      ∃ ins, parse .LDM [c, d, b] = some ins ∧
        decode ((ins.bytes.headD 0) &&& 0xF) ins.bytes = .LDM b c.toNat d.toNat) ∧
    (∀ B C : Int, 0 ≤ B → B < 2 ^ 10 → 0 ≤ C → C < 2 ^ 7 →
      ∃ ins, parse .STM [B, C] = some ins ∧
        decode ((ins.bytes.headD 0) &&& 0xF) ins.bytes = .STM B.toNat C.toNat) ∧
    (∀ d b c : Int, 0 ≤ b → b < 2 ^ 7 → 0 ≤ c → c < 2 ^ 10 → 0 ≤ d → d < 2 ^ 7 →
      ∃ ins, parse .GE [d, b, c] = some ins ∧
        decode ((ins.bytes.headD 0) &&& 0xF) ins.bytes = .GE b.toNat c.toNat d.toNat) := by
  refine ⟨?_, ?_, ?_, ?_⟩
  · intro B C hB0 hB1 hC0 hC1
    have hBfit : fit_bits B 7 = some B.toNat := fit_bits_unsigned hB0 hB1
    obtain ⟨pC, hCfit, hClt, hCsig⟩ :=
      @fit_bits_signed C 20 (by norm_num)
        (by push_cast; omega) (by push_cast; omega)
    refine ⟨_, parse_LC hBfit hCfit, ?_⟩
    show decode ((to_bytes_le_core 4 (B.toNat * 2 ^ 4 + pC * 2 ^ 11)).headD 0 &&& 0xF)
      (to_bytes_le_core 4 (B.toNat * 2 ^ 4 + pC * 2 ^ 11)) = Decoded.LC B.toNat C
    rw [first_byte_nibble 4 _ (by norm_num),
      show (B.toNat * 2 ^ 4 + pC * 2 ^ 11) % 16 = 0 by omega,
      decode_LC_eq,
      from_to_bytes 4 (B.toNat * 2 ^ 4 + pC * 2 ^ 11) (by omega),
      show (B.toNat * 2 ^ 4 + pC * 2 ^ 11) / 16 % 128 = B.toNat by omega,
      show (B.toNat * 2 ^ 4 + pC * 2 ^ 11) / 2048 % 1048576 = pC by omega,
      hCsig]
  · intro c d b hb0 hb1 hc0 hc1 hd0 hd1
    obtain ⟨pB, hBfit, hBlt, hBsig⟩ :=
      @fit_bits_signed b 15 (by norm_num)
        (by push_cast; omega) (by push_cast; omega)
    have hCfit : fit_bits c 7 = some c.toNat := fit_bits_unsigned hc0 hc1
    have hDfit : fit_bits d 7 = some d.toNat := fit_bits_unsigned hd0 hd1
    have hclt : c.toNat < 2 ^ 7 := by omega
    have hdlt : d.toNat < 2 ^ 7 := by omega
    refine ⟨_, parse_LDM hBfit hCfit hDfit, ?_⟩
    show decode
      ((to_bytes_le_core 5 (13 + pB * 2 ^ 4 + c.toNat * 2 ^ 19 + d.toNat * 2 ^ 26)).headD 0 &&& 0xF)
      (to_bytes_le_core 5 (13 + pB * 2 ^ 4 + c.toNat * 2 ^ 19 + d.toNat * 2 ^ 26)) =
      Decoded.LDM b c.toNat d.toNat
    rw [first_byte_nibble 5 _ (by norm_num),
      show (13 + pB * 2 ^ 4 + c.toNat * 2 ^ 19 + d.toNat * 2 ^ 26) % 16 = 13 by omega,
      decode_LDM_eq,
      from_to_bytes 5 (13 + pB * 2 ^ 4 + c.toNat * 2 ^ 19 + d.toNat * 2 ^ 26) (by omega),
      show (13 + pB * 2 ^ 4 + c.toNat * 2 ^ 19 + d.toNat * 2 ^ 26) / 16 % 32768 = pB by omega,
      show (13 + pB * 2 ^ 4 + c.toNat * 2 ^ 19 + d.toNat * 2 ^ 26) / 524288 % 128 = c.toNat by omega,
      show (13 + pB * 2 ^ 4 + c.toNat * 2 ^ 19 + d.toNat * 2 ^ 26) / 67108864 % 128 = d.toNat by omega,
      hBsig]
  · intro B C hB0 hB1 hC0 hC1
    have hBfit : fit_bits B 10 = some B.toNat := fit_bits_unsigned hB0 hB1
    have hCfit : fit_bits C 7 = some C.toNat := fit_bits_unsigned hC0 hC1
    have hBlt : B.toNat < 2 ^ 10 := by omega
    have hClt : C.toNat < 2 ^ 7 := by omega
    refine ⟨_, parse_STM hBfit hCfit, ?_⟩
    show decode ((to_bytes_le_core 3 (9 + B.toNat * 2 ^ 4 + C.toNat * 2 ^ 14)).headD 0 &&& 0xF)
      (to_bytes_le_core 3 (9 + B.toNat * 2 ^ 4 + C.toNat * 2 ^ 14)) = Decoded.STM B.toNat C.toNat
    rw [first_byte_nibble 3 _ (by norm_num),
      show (9 + B.toNat * 2 ^ 4 + C.toNat * 2 ^ 14) % 16 = 9 by omega,
      decode_STM_eq,
      from_to_bytes 3 (9 + B.toNat * 2 ^ 4 + C.toNat * 2 ^ 14) (by omega),
      show (9 + B.toNat * 2 ^ 4 + C.toNat * 2 ^ 14) / 16 % 1024 = B.toNat by omega,
      show (9 + B.toNat * 2 ^ 4 + C.toNat * 2 ^ 14) / 16384 % 128 = C.toNat by omega]
  · intro d b c hb0 hb1 hc0 hc1 hd0 hd1
    have hBfit : fit_bits b 7 = some b.toNat := fit_bits_unsigned hb0 hb1
    have hCfit : fit_bits c 10 = some c.toNat := fit_bits_unsigned hc0 hc1
    have hDfit : fit_bits d 7 = some d.toNat := fit_bits_unsigned hd0 hd1
    have hblt : b.toNat < 2 ^ 7 := by omega
    have hclt : c.toNat < 2 ^ 10 := by omega
    have hdlt : d.toNat < 2 ^ 7 := by omega
    refine ⟨_, parse_GE hBfit hCfit hDfit, ?_⟩
    show decode
      ((to_bytes_le_core 4 (15 + b.toNat * 2 ^ 4 + c.toNat * 2 ^ 11 + d.toNat * 2 ^ 21)).headD 0 &&& 0xF)
      (to_bytes_le_core 4 (15 + b.toNat * 2 ^ 4 + c.toNat * 2 ^ 11 + d.toNat * 2 ^ 21)) =
      Decoded.GE b.toNat c.toNat d.toNat
    rw [first_byte_nibble 4 _ (by norm_num),
      show (15 + b.toNat * 2 ^ 4 + c.toNat * 2 ^ 11 + d.toNat * 2 ^ 21) % 16 = 15 by omega,
      decode_GE_eq,
      from_to_bytes 4 (15 + b.toNat * 2 ^ 4 + c.toNat * 2 ^ 11 + d.toNat * 2 ^ 21) (by omega),
      show (15 + b.toNat * 2 ^ 4 + c.toNat * 2 ^ 11 + d.toNat * 2 ^ 21) / 16 % 128 = b.toNat by omega,
      show (15 + b.toNat * 2 ^ 4 + c.toNat * 2 ^ 11 + d.toNat * 2 ^ 21) / 2048 % 1024 = c.toNat by omega,
      show (15 + b.toNat * 2 ^ 4 + c.toNat * 2 ^ 11 + d.toNat * 2 ^ 21) / 2097152 % 128 = d.toNat by omega]


/-- Witness for C1: concrete round trips at extreme signed values, the
most negative LC constant and the most positive LDM offset. -/
theorem roundtrip_encode_decode_witness :
    (∃ ins, parse .LC [127, -(2 ^ 19)] = some ins ∧
      decode ((ins.bytes.headD 0) &&& 0xF) ins.bytes =
        .LC (Int.toNat 127) (-(2 ^ 19))) ∧
    (∃ ins, parse .LDM [5, 2, 2 ^ 14 - 1] = some ins ∧
      decode ((ins.bytes.headD 0) &&& 0xF) ins.bytes =
        .LDM (2 ^ 14 - 1) (Int.toNat 5) (Int.toNat 2)) :=
  ⟨roundtrip_encode_decode.1 127 (-(2 ^ 19)) (by norm_num) (by norm_num)
      (by norm_num) (by norm_num),
    roundtrip_encode_decode.2.1 5 2 (2 ^ 14 - 1) (by norm_num) (by norm_num)
      (by norm_num) (by norm_num) (by norm_num) (by norm_num)⟩

/-- Claim C2 counterexample: the claim says packing -(2^(bits-1))-1 must
fail for every width, but at bits = 7 the value -65 converts to
-65 + 128 = 63, which is inside [0, 2^7), so fit_bits accepts it. -/
theorem fit_bits_neg_boundary_refuted :
    fit_bits (-(2 ^ (7 - 1)) - 1) 7 = some 63 ∧
    fit_bits (-(2 ^ (7 - 1)) - 1) 7 ≠ none := by
  constructor
  · decide
  · decide

/-- Claim C2 (amended): packing 2^bits fails; packing 2^(bits-1)-1 and
-(2^(bits-1)) succeed; but for bits ≥ 1 packing -(2^(bits-1))-1 also
succeeds (it wraps to 2^(bits-1)-1) rather than failing; fit_bits
converts a negative value v to v + 2^bits and then fails exactly when the
converted value lies outside [0, 2^bits). -/
theorem fit_bits_boundary :
    (∀ bits : Nat, fit_bits (2 ^ bits) bits = none) ∧
    (∀ bits : Nat, 1 ≤ bits →
      fit_bits (-(2 ^ (bits - 1)) - 1) bits = some (2 ^ (bits - 1) - 1)) ∧
    (∀ bits : Nat, fit_bits (2 ^ (bits - 1) - 1) bits = some (2 ^ (bits - 1) - 1)) ∧
    (∀ bits : Nat, fit_bits (-(2 ^ (bits - 1))) bits = some (2 ^ bits - 2 ^ (bits - 1))) ∧
    (∀ (v : Int) (bits : Nat),
      fit_bits v bits = none ↔
        (if v < 0 then v + 2 ^ bits else v) < 0 ∨
        (2 ^ bits : Int) ≤ (if v < 0 then v + 2 ^ bits else v)) := by
  have hcast : ∀ k : Nat, ((2 ^ k : Nat) : Int) = 2 ^ k := by
    intro k
    push_cast
    ring
  refine ⟨?_, ?_, ?_, ?_, ?_⟩
  · intro bits
    have hc := hcast bits
    rw [fit_bits_eq]
    split_ifs with h1 h2 h3 <;> first | rfl | omega
  · intro bits hb
    obtain ⟨k, rfl⟩ : ∃ k, bits = k + 1 := ⟨bits - 1, by omega⟩
    simp only [Nat.add_sub_cancel]
    have hk := hcast k
    have hk1 := hcast (k + 1)
    have hkk : (2 ^ (k + 1) : Nat) = 2 * 2 ^ k := by ring
    have hpos : 1 ≤ (2 ^ k : Nat) := Nat.one_le_two_pow
    rw [fit_bits_eq]
    split_ifs with h1 h2 h3 <;> first | (congr 1; omega) | omega
  · intro bits
    have hk := hcast (bits - 1)
    have hk1 := hcast bits
    have hkk : (2 ^ (bits - 1) : Nat) ≤ 2 ^ bits :=
      Nat.pow_le_pow_right (by norm_num) (by omega)
    have hpos : 1 ≤ (2 ^ (bits - 1) : Nat) := Nat.one_le_two_pow
    rw [fit_bits_eq]
    split_ifs with h1 h2 h3 <;> first | (congr 1; omega) | omega
  · intro bits
    have hk := hcast (bits - 1)
    have hk1 := hcast bits
    have hkk : 2 * (2 ^ (bits - 1) : Nat) = 2 ^ (bits - 1 + 1) := by ring
    have hble : (2 ^ (bits - 1) : Nat) ≤ 2 ^ bits :=
      Nat.pow_le_pow_right (by norm_num) (by omega)
    have hble2 : (2 ^ bits : Nat) ≤ 2 ^ (bits - 1 + 1) :=
      Nat.pow_le_pow_right (by norm_num) (by omega)
    have hc2 := hcast (bits - 1 + 1)
    have hpos : 1 ≤ (2 ^ (bits - 1) : Nat) := Nat.one_le_two_pow
    rw [fit_bits_eq]
    split_ifs with h1 h2 h3 <;> first | (congr 1; omega) | omega
  · intro v bits
    have hk1 := hcast bits
    rw [fit_bits_eq]
    split_ifs with h1 h2 h3 <;> simp <;> omega

/-- Witness for C2 (amended): at bits = 7 the claimed-failing value -65
in fact packs to 63 = 2^6 - 1. -/
theorem fit_bits_boundary_witness :
    (1 ≤ 7) ∧ fit_bits (-(2 ^ (7 - 1)) - 1) 7 = some (2 ^ (7 - 1) - 1) :=
  ⟨by decide, fit_bits_boundary.2.1 7 (by decide)⟩

/-- Claim C3: opcode nibble isolation: for every opcode and every packable
field assignment, the first encoded byte ANDed with 0xF is the opcode
value (0, 13, 9, 15); no packed field reaches bits 0-3. -/
theorem opcode_nibble_isolation :
    (∀ (B C : Int) (pB pC : Nat), fit_bits B 7 = some pB →
      fit_bits C 20 = some pC →
      (parse .LC [B, C]).map (fun i => (i.bytes.headD 0) &&& 0xF) = some 0) ∧
    (∀ (c d b : Int) (pB pC pD : Nat), fit_bits b 15 = some pB →
      fit_bits c 7 = some pC → fit_bits d 7 = some pD →
      (parse .LDM [c, d, b]).map (fun i => (i.bytes.headD 0) &&& 0xF) = some 13) ∧
    (∀ (B C : Int) (pB pC : Nat), fit_bits B 10 = some pB →
      fit_bits C 7 = some pC →
      (parse .STM [B, C]).map (fun i => (i.bytes.headD 0) &&& 0xF) = some 9) ∧
    (∀ (d b c : Int) (pB pC pD : Nat), fit_bits b 7 = some pB →
      fit_bits c 10 = some pC → fit_bits d 7 = some pD →
      (parse .GE [d, b, c]).map (fun i => (i.bytes.headD 0) &&& 0xF) = some 15) := by
  refine ⟨?_, ?_, ?_, ?_⟩
  · intro B C pB pC hB hC
    rw [parse_LC hB hC, Option.map_some']
    rw [show Ins.bytes ⟨.LC, 0, [("B", B), ("C", C)],
        to_bytes_le_core 4 (pB * 2 ^ 4 + pC * 2 ^ 11)⟩ =
      to_bytes_le_core 4 (pB * 2 ^ 4 + pC * 2 ^ 11) from rfl]
    rw [first_byte_nibble 4 _ (by norm_num),
      show (pB * 2 ^ 4 + pC * 2 ^ 11) % 16 = 0 by omega]
  · intro c d b pB pC pD hB hC hD
    rw [parse_LDM hB hC hD, Option.map_some']
    rw [show Ins.bytes ⟨.LDM, 13, [("B", b), ("C", c), ("D", d)],
        to_bytes_le_core 5 (13 + pB * 2 ^ 4 + pC * 2 ^ 19 + pD * 2 ^ 26)⟩ =
      to_bytes_le_core 5 (13 + pB * 2 ^ 4 + pC * 2 ^ 19 + pD * 2 ^ 26) from rfl]
    rw [first_byte_nibble 5 _ (by norm_num),
      show (13 + pB * 2 ^ 4 + pC * 2 ^ 19 + pD * 2 ^ 26) % 16 = 13 by omega]
  · intro B C pB pC hB hC
    rw [parse_STM hB hC, Option.map_some']
    rw [show Ins.bytes ⟨.STM, 9, [("B", B), ("C", C)],
        to_bytes_le_core 3 (9 + pB * 2 ^ 4 + pC * 2 ^ 14)⟩ =
      to_bytes_le_core 3 (9 + pB * 2 ^ 4 + pC * 2 ^ 14) from rfl]
    rw [first_byte_nibble 3 _ (by norm_num),
      show (9 + pB * 2 ^ 4 + pC * 2 ^ 14) % 16 = 9 by omega]
  · intro d b c pB pC pD hB hC hD
    rw [parse_GE hB hC hD, Option.map_some']
    rw [show Ins.bytes ⟨.GE, 15, [("B", b), ("C", c), ("D", d)],
        to_bytes_le_core 4 (15 + pB * 2 ^ 4 + pC * 2 ^ 11 + pD * 2 ^ 21)⟩ =
      to_bytes_le_core 4 (15 + pB * 2 ^ 4 + pC * 2 ^ 11 + pD * 2 ^ 21) from rfl]
    rw [first_byte_nibble 4 _ (by norm_num),
      show (15 + pB * 2 ^ 4 + pC * 2 ^ 11 + pD * 2 ^ 21) % 16 = 15 by omega]

/-- Witness for C3: the concrete LC instruction for r3, -5 has opcode
nibble 0 in its first byte. -/
theorem opcode_nibble_isolation_witness :
    (parse .LC [3, -5]).map (fun i => (i.bytes.headD 0) &&& 0xF) = some 0 :=
  opcode_nibble_isolation.1 3 (-5) 3 1048571 (by decide) (by decide)

/-- Claim C4 counterexample: under the claimed surface order (D, B, C) an
LDM line with operands 1, 2, 3 would carry fields B=2, C=3, D=1, and under
the claimed GE surface order (B, D, C) operands 1, 2, 3 would carry
B=1, C=3, D=2; the assembler instead produces B=3, C=1, D=2 for LDM
(surface order is C, D, B) and B=2, C=3, D=1 for GE (surface order is
D, B, C). -/
theorem operand_reorder_refuted :
    (parse .LDM [1, 2, 3]).map Ins.fields = some [("B", 3), ("C", 1), ("D", 2)] ∧
    (parse .LDM [1, 2, 3]).map Ins.fields ≠ some [("B", 2), ("C", 3), ("D", 1)] ∧
    (parse .GE [1, 2, 3]).map Ins.fields = some [("B", 2), ("C", 3), ("D", 1)] ∧
    (parse .GE [1, 2, 3]).map Ins.fields ≠ some [("B", 1), ("C", 3), ("D", 2)] := by
  refine ⟨by decide, by decide, by decide, by decide⟩

/-- Claim C4 (amended): an LDM line's operands are given in surface order
(C, D, B) and reassigned to internal fields in order (B, C, D); a GE
line's operands are given in surface order (D, B, C) and reassigned to
(B, C, D); in particular the source line LDM r5, r2, 8 encodes to fields
B=8, C=5, D=2. -/
theorem operand_reorder :
    (∀ (c d b : Int) (ins : Ins), parse .LDM [c, d, b] = some ins →
      ins.fields = [("B", b), ("C", c), ("D", d)]) ∧
    (∀ (d b c : Int) (ins : Ins), parse .GE [d, b, c] = some ins →
      ins.fields = [("B", b), ("C", c), ("D", d)]) ∧
    (parse .LDM [5, 2, 8]).map Ins.fields = some [("B", 8), ("C", 5), ("D", 2)] := by
  refine ⟨?_, ?_, by decide⟩
  · intro c d b ins h
    cases hB : fit_bits b 15 with
    | none => simp [parse, SPECS, reorderArgs, packLoop, hB] at h
    | some pB =>
      cases hC : fit_bits c 7 with
      | none => simp [parse, SPECS, reorderArgs, packLoop, hB, hC] at h
      | some pC =>
        cases hD : fit_bits d 7 with
        | none => simp [parse, SPECS, reorderArgs, packLoop, hB, hC, hD] at h
        | some pD =>
          rw [parse_LDM hB hC hD, Option.some_inj] at h
          rw [← h]
  · intro d b c ins h
    cases hB : fit_bits b 7 with
    | none => simp [parse, SPECS, reorderArgs, packLoop, hB] at h
    | some pB =>
      cases hC : fit_bits c 10 with
      | none => simp [parse, SPECS, reorderArgs, packLoop, hB, hC] at h
      | some pC =>
        cases hD : fit_bits d 7 with
        | none => simp [parse, SPECS, reorderArgs, packLoop, hB, hC, hD] at h
        | some pD =>
          rw [parse_GE hB hC hD, Option.some_inj] at h
          rw [← h]

/-- Witness for C4 (amended): the LDM r5, r2, 8 scenario, applied to the
concrete instruction the assembler produces. -/
theorem operand_reorder_witness :
    Ins.fields ⟨.LDM, 13, [("B", 8), ("C", 5), ("D", 2)], [141, 0, 40, 8, 0]⟩ =
      [("B", 8), ("C", 5), ("D", 2)] :=
  operand_reorder.1 5 2 8 _ (by decide)

/-! ### Interpreter helper lemmas -/

/-- An in-range Python read returns the getD value. -/
theorem getItem_of_lt (l : List Int) (i : Nat) (h : i < l.length) :
    getItem l i = some (l.getD i 0) := by
  unfold getItem
  rw [List.getD_eq_get?]
  cases hg : l.get? i with
  | none => exact absurd (List.get?_eq_none.mp hg) (by omega)
  | some v => rfl

/-- An in-range Python write returns the updated list. -/
theorem setItem_of_lt (l : List Int) (i : Nat) (v : Int) (h : i < l.length) :
    setItem l i v = some (l.set i v) := if_pos h

/-- Inversion for a successful Python write. -/
theorem setItem_some {l l2 : List Int} {i : Nat} {v : Int}
    (h : setItem l i v = some l2) : l2 = l.set i v ∧ l2.length = l.length := by
  unfold setItem at h
  split_ifs at h with hc
  · cases h
    exact ⟨rfl, l.length_set i v⟩

/-- One unfolding step of the interpreter loop. -/
theorem runFuel_succ (fuel progLen : Nat) (s : State) :
    runFuel (fuel + 1) progLen s =
      if s.pc < progLen then
        match fetchDecode s with
        | .err e => (.err e s, [s.pc])
        | .ok d size =>
          match execIns s d size with
          | .err e => (.err e s, [s.pc])
          | .ok s1 =>
            ((runFuel fuel progLen s1).1, s.pc :: (runFuel fuel progLen s1).2)
      else (.done s, []) := rfl

/-- Claim C5: GE r1, r2, 50 assembles to fields B=2, C=50, D=1, decodes
back to them, and executing that instruction sets register 1 to 1 when
register 2 is at least memory cell 50 and to 0 otherwise, advancing pc by
the instruction size and leaving memory and every other register
unchanged. -/
theorem ge_scenario :
    (parse .GE [1, 2, 50]).map Ins.bytes = some [47, 144, 33, 0] ∧
    decode ((47 : Nat) &&& 0xF) [47, 144, 33, 0] = .GE 2 50 1 ∧
    (∀ (s : State) (size : Nat), s.regs.length = 128 → 50 < s.mem.length →
      execIns s (.GE 2 50 1) size =
        .ok ⟨s.regs.set 1 (if s.regs.getD 2 0 ≥ s.mem.getD 50 0 then 1 else 0),
          s.mem, s.pc + size⟩ ∧
      (∀ i : Nat, i ≠ 1 →
        (s.regs.set 1
          (if s.regs.getD 2 0 ≥ s.mem.getD 50 0 then 1 else 0)).get? i =
          s.regs.get? i)) := by
  refine ⟨by decide, by decide, ?_⟩
  intro s size h128 h50
  constructor
  · unfold execIns
    dsimp only
    rw [getItem_of_lt s.regs 2 (by omega), getItem_of_lt s.mem 50 (by omega)]
    dsimp only
    rw [setItem_of_lt s.regs 1 _ (by omega)]
  · intro i hi
    exact List.get?_set_ne _ s.regs (fun h => hi h.symm)

/-- Witness for C5: executing the decoded GE on a concrete state with
register 2 holding 7 and memory cell 50 holding 3 sets register 1 to 1. -/
theorem ge_scenario_witness :
    execIns ⟨(List.replicate 128 0).set 2 7, List.replicate 51 3, 0⟩ (.GE 2 50 1) 4 =
      .ok ⟨((List.replicate 128 0).set 2 7).set 1
        (if ((List.replicate 128 0).set 2 7).getD 2 0 ≥
            (List.replicate (51 : Nat) (3 : Int)).getD 50 0 then 1 else 0),
        List.replicate 51 3, 0 + 4⟩ :=
  ((ge_scenario.2.2 ⟨(List.replicate 128 0).set 2 7, List.replicate 51 3, 0⟩ 4
    (by simp) (by simp)).1)

set_option maxRecDepth 8000 in
/-- Claim C6: assembling LC r3, -5 then STM 100, r3 yields 4 + 3 = 7
bytes; running that image with program_length 7 on a memory holding the
image followed by zeroes, of any total length at least 101, terminates
normally with pc = 7 and memory cell 100 holding -5 (the 20-bit immediate
is sign-extended back to -5 before the store). -/
theorem lc_stm_scenario (L : Nat) (hL : 101 ≤ L) :
    (parse .LC [3, -5]).map Ins.bytes = some [48, 216, 255, 127] ∧
    (parse .STM [100, 3]).map Ins.bytes = some [73, 198, 0] ∧
    (([48, 216, 255, 127] ++ [73, 198, 0] : List Nat)).length = 7 ∧
    ∃ s : State,
      runFuel 8 7 ⟨List.replicate 128 0,
        ([48, 216, 255, 127, 73, 198, 0] : List Int) ++ List.replicate (L - 7) 0,
        0⟩ = (.done s, [0, 4]) ∧
      s.pc = 7 ∧ s.mem.get? 100 = some (-5) := by
  refine ⟨by decide, by decide, by decide, ?_⟩
  set mem0 : List Int :=
    ([48, 216, 255, 127, 73, 198, 0] : List Int) ++ List.replicate (L - 7) 0
    with hmem0
  have hlen : mem0.length = L := by
    rw [hmem0, List.length_append, List.length_replicate]
    norm_num
    omega
  set regs1 : List Int := (List.replicate 128 0).set 3 (-5) with hregs1
  set s0 : State := ⟨List.replicate 128 0, mem0, 0⟩ with hs0
  set s1 : State := ⟨regs1, mem0, 4⟩ with hs1
  set s2 : State := ⟨regs1, mem0.set 100 (-5), 7⟩ with hs2
  have hfd0 : fetchDecode s0 = .ok (.LC 3 (-5)) 4 := rfl
  have hex0 : execIns s0 (.LC 3 (-5)) 4 = .ok s1 := rfl
  have hfd1 : fetchDecode s1 = .ok (.STM 100 3) 3 := rfl
  have hex1 : execIns s1 (.STM 100 3) 3 = .ok s2 := by
    unfold execIns
    dsimp only
    rw [show getItem regs1 3 = some (-5) from rfl]
    dsimp only
    rw [setItem_of_lt mem0 100 (-5) (by omega)]
  have hr2 : runFuel 6 7 s2 = (.done s2, []) := rfl
  have hr1 : runFuel 7 7 s1 = (.done s2, [4]) := by
    rw [show (7 : Nat) = 6 + 1 from rfl, runFuel_succ]
    rw [if_pos (by norm_num), hfd1]
    dsimp only
    rw [hex1]
    dsimp only
    rw [hr2]
  have hr0 : runFuel 8 7 s0 = (.done s2, [0, 4]) := by
    rw [show (8 : Nat) = 7 + 1 from rfl, runFuel_succ]
    rw [if_pos (by norm_num), hfd0]
    dsimp only
    rw [hex0]
    dsimp only
    rw [hr1]
  refine ⟨s2, hr0, rfl, ?_⟩
  show (mem0.set 100 (-5)).get? 100 = some (-5)
  rw [List.get?_set_eq_of_lt _ (by omega)]

/-- Claim C7: when the fetched instruction is an LDM, the interpreter
computes address = register[D] + B (B sign-extended); out of
[0, len(memory)) it fails with an OutOfBounds error carrying the computed
address and the run halts at once with the pre-instruction state (so the
faulting instruction changes neither registers nor memory); otherwise it
loads register[C] from memory[address] and advances pc. -/
theorem ldm_bounds (fuel progLen : Nat) (s : State) (B : Int) (C D size : Nat)
    (hpc : s.pc < progLen)
    (hfd : fetchDecode s = .ok (.LDM B C D) size)
    (hC : C < s.regs.length) (hD : D < s.regs.length) :
    (¬ (0 ≤ s.regs.getD D 0 + B ∧ s.regs.getD D 0 + B < (s.mem.length : Int)) →
      (runFuel (fuel + 1) progLen s).1 =
        .err (.outOfBounds (s.regs.getD D 0 + B)) s) ∧
    ((0 ≤ s.regs.getD D 0 + B ∧ s.regs.getD D 0 + B < (s.mem.length : Int)) →
      execIns s (.LDM B C D) size =
        .ok ⟨s.regs.set C (s.mem.getD (s.regs.getD D 0 + B).toNat 0),
          s.mem, s.pc + size⟩) := by
  constructor
  · intro hout
    have hexec : execIns s (.LDM B C D) size =
        .err (.outOfBounds (s.regs.getD D 0 + B)) := by
      unfold execIns
      dsimp only
      rw [getItem_of_lt s.regs D hD]
      dsimp only
      rw [if_neg hout]
    rw [runFuel_succ, if_pos hpc, hfd]
    dsimp only
    rw [hexec]
  · intro hin
    unfold execIns
    dsimp only
    rw [getItem_of_lt s.regs D hD]
    dsimp only
    rw [if_pos hin]
    rw [getItem_of_lt s.mem _ (by omega)]
    dsimp only
    rw [setItem_of_lt s.regs C _ hC]

set_option maxRecDepth 8000 in
/-- Witness for C7: a 5-byte image holding one LDM with offset B = -1 and
D = r0 = 0 computes address -1 and the run aborts with OutOfBounds -1,
leaving the initial state untouched. -/
theorem ldm_bounds_witness :
    (runFuel 1 5 ⟨List.replicate 128 0, [253, 255, 7, 0, 0], 0⟩).1 =
      .err (.outOfBounds (-1)) ⟨List.replicate 128 0, [253, 255, 7, 0, 0], 0⟩ := by
  have h := (ldm_bounds 0 5 ⟨List.replicate 128 0, [253, 255, 7, 0, 0], 0⟩
    (-1) 0 0 5 (by norm_num) (by decide) (by simp) (by simp)).1 (by simp)
  simpa using h

/-- Claim C8: every pc at which the loop fetches an instruction is below
program_length; bytes at or past the program end are never fetched as the
start of an instruction, in any run from any state. -/
theorem fetch_trace_in_program : ∀ (fuel progLen : Nat) (s : State) (a : Nat),
    a ∈ (runFuel fuel progLen s).2 → a < progLen := by
  intro fuel
  induction fuel with
  | zero =>
    intro progLen s a ha
    simp [runFuel] at ha
  | succ n ih =>
    intro progLen s a ha
    rw [runFuel_succ] at ha
    by_cases hpc : s.pc < progLen
    · rw [if_pos hpc] at ha
      cases hfd : fetchDecode s with
      | err e =>
        rw [hfd] at ha
        simp at ha
        omega
      | ok d size =>
        rw [hfd] at ha
        dsimp only at ha
        cases hex : execIns s d size with
        | err e =>
          rw [hex] at ha
          simp at ha
          omega
        | ok s1 =>
          rw [hex] at ha
          simp at ha
          rcases ha with h | h
          · omega
          · exact ih progLen s1 a h
    · rw [if_neg hpc] at ha
      simp at ha

set_option maxRecDepth 8000 in
/-- Witness for C8: a one-instruction run fetches only at pc 0, inside the
program region. -/
theorem fetch_trace_in_program_witness :
    (0 ∈ (runFuel 2 1 ⟨List.replicate 128 0, [0, 0, 0, 0], 0⟩).2) ∧ 0 < 1 :=
  ⟨by decide, fetch_trace_in_program 2 1 ⟨List.replicate 128 0, [0, 0, 0, 0], 0⟩ 0
    (by decide)⟩

/-- A successful SIZES lookup is one of the four fixed sizes. -/
theorem SIZES_some {a size : Nat} (h : SIZES a = some size) :
    3 ≤ size ∧ size ≤ 5 := by
  unfold SIZES at h
  split_ifs at h <;> cases h <;> omega

/-- Inversion of a successful fetch/decode stage. -/
theorem fetchDecode_ok {s : State} {d : Decoded} {size : Nat}
    (h : fetchDecode s = .ok d size) :
    3 ≤ size ∧ ∃ opcode raw, d = decode opcode raw ∧ SIZES opcode = some size := by
  unfold fetchDecode at h
  cases hg : getItem s.mem s.pc with
  | none => rw [hg] at h; cases h
  | some m0 =>
    rw [hg] at h
    dsimp only at h
    cases hs : SIZES ((m0 % 16).toNat) with
    | none => rw [hs] at h; cases h
    | some sz =>
      rw [hs] at h
      dsimp only at h
      cases hf : fetch s.mem s.pc sz with
      | none => rw [hf] at h; cases h
      | some raw =>
        rw [hf] at h
        dsimp only at h
        cases h
        exact ⟨(SIZES_some hs).1, _, raw, rfl, hs⟩

/-- A successfully executed instruction advances pc by exactly its size
and preserves the lengths of the register file and of memory. -/
theorem execIns_ok {s : State} {d : Decoded} {size : Nat} {s1 : State}
    (h : execIns s d size = .ok s1) :
    s1.pc = s.pc + size ∧ s1.regs.length = s.regs.length ∧
      s1.mem.length = s.mem.length := by
  unfold execIns at h
  cases d with
  | LC B C =>
    dsimp only at h
    cases hset : setItem s.regs B C with
    | none => rw [hset] at h; cases h
    | some regs =>
      rw [hset] at h
      cases h
      exact ⟨rfl, (setItem_some hset).2, rfl⟩
  | STM B C =>
    dsimp only at h
    cases hget : getItem s.regs C with
    | none => rw [hget] at h; cases h
    | some v =>
      rw [hget] at h
      dsimp only at h
      cases hset : setItem s.mem B v with
      | none => rw [hset] at h; cases h
      | some mem =>
        rw [hset] at h
        cases h
        exact ⟨rfl, rfl, (setItem_some hset).2⟩
  | LDM B C D =>
    dsimp only at h
    cases hget : getItem s.regs D with
    | none => rw [hget] at h; cases h
    | some rD =>
      rw [hget] at h
      dsimp only at h
      by_cases hif : 0 ≤ rD + B ∧ rD + B < (s.mem.length : Int)
      · rw [if_pos hif] at h
        cases hg2 : getItem s.mem (rD + B).toNat with
        | none => rw [hg2] at h; cases h
        | some v =>
          rw [hg2] at h
          dsimp only at h
          cases hset : setItem s.regs C v with
          | none => rw [hset] at h; cases h
          | some regs =>
            rw [hset] at h
            cases h
            exact ⟨rfl, (setItem_some hset).2, rfl⟩
      · rw [if_neg hif] at h
        cases h
  | GE B C D =>
    dsimp only at h
    cases hg1 : getItem s.regs B with
    | none => rw [hg1] at h; cases h
    | some rB =>
      rw [hg1] at h
      cases hg2 : getItem s.mem C with
      | none => rw [hg2] at h; cases h
      | some mC =>
        rw [hg2] at h
        dsimp only at h
        cases hset : setItem s.regs D (if rB ≥ mC then 1 else 0) with
        | none => rw [hset] at h; cases h
        | some regs =>
          rw [hset] at h
          cases h
          exact ⟨rfl, (setItem_some hset).2, rfl⟩
  | UNKNOWN A =>
    dsimp only at h
    cases h

/-- Fuel-indexed termination core: each executed instruction advances pc
by its size, at least 3, so the remaining program length shrinks by at
least 3 per iteration. -/
theorem run_terminates_aux : ∀ (fuel progLen : Nat) (s : State),
    progLen - s.pc ≤ 3 * fuel →
    ((runFuel (fuel + 1) progLen s).1.settled progLen) = true := by
  intro fuel
  induction fuel with
  | zero =>
    intro progLen s h
    rw [runFuel_succ, if_neg (by omega)]
    simp [RunResult.settled]
    omega
  | succ n ih =>
    intro progLen s h
    rw [runFuel_succ]
    by_cases hpc : s.pc < progLen
    · rw [if_pos hpc]
      cases hfd : fetchDecode s with
      | err e => rfl
      | ok d size =>
        dsimp only
        cases hex : execIns s d size with
        | err e => rfl
        | ok s1 =>
          dsimp only
          have hsz := (fetchDecode_ok hfd).1
          have hpc1 := (execIns_ok hex).1
          exact ih progLen s1 (by omega)
    · rw [if_neg hpc]
      simp [RunResult.settled]
      omega

/-- Claim C9: for every program_length and every start state, the
interpreter loop terminates within a fuel bound proportional to
program_length / 3 — the result is a normal completion (with pc at or
past program_length) or a fatal error, never the fuel-exhaustion
marker. -/
theorem run_terminates (progLen : Nat) (s : State) :
    ((runFuel ((progLen + 2) / 3 + 1) progLen s).1.settled progLen) = true :=
  run_terminates_aux ((progLen + 2) / 3) progLen s (by omega)

/-- The mask bounds every decoded instruction satisfies: register indices
below 128, STM target address and GE source address below 1024. -/
def DecodedBounds : Decoded → Prop
  | .LC B _ => B < 128
  | .STM B C => B < 1024 ∧ C < 128
  | .LDM _ C D => C < 128 ∧ D < 128
  | .GE B C D => B < 128 ∧ C < 1024 ∧ D < 128
  | .UNKNOWN _ => True

/-- decode masks its fields, so every decoded record is in bounds. -/
theorem decode_bounds (opcode : Nat) (raw : List Nat) :
    DecodedBounds (decode opcode raw) := by
  unfold decode
  split_ifs <;> simp only [DecodedBounds, and_127, and_1023] <;> omega

/-- A fetch whose span lies inside memory succeeds. -/
theorem fetch_some : ∀ (size : Nat) (mem : List Int) (pc : Nat),
    pc + size ≤ mem.length → ∃ raw, fetch mem pc size = some raw := by
  intro size
  induction size with
  | zero =>
    intro mem pc h
    exact ⟨[], rfl⟩
  | succ n ih =>
    intro mem pc h
    obtain ⟨raw, hraw⟩ := ih mem (pc + 1) (by omega)
    refine ⟨((mem.getD pc 0) % 256).toNat :: raw, ?_⟩
    unfold fetch
    rw [getItem_of_lt mem pc (by omega)]
    dsimp only
    rw [hraw]

/-- Under the loader's memory headroom, the fetch/decode stage either
reports an unknown opcode or yields an in-bounds decoded instruction —
never a Python IndexError. -/
theorem fetchDecode_cases {progLen : Nat} {s : State}
    (hpc : s.pc < progLen) (hmem : progLen + 2048 ≤ s.mem.length) :
    fetchDecode s =
      .err (.unknownOp ((s.mem.getD s.pc 0 % 16).toNat) s.pc) ∨
    ∃ d size, fetchDecode s = .ok d size ∧ DecodedBounds d := by
  unfold fetchDecode
  rw [getItem_of_lt s.mem s.pc (by omega)]
  dsimp only
  cases hs : SIZES ((s.mem.getD s.pc 0 % 16).toNat) with
  | none =>
    left
    rfl
  | some size =>
    dsimp only
    have hsz := (SIZES_some hs).2
    obtain ⟨raw, hraw⟩ := fetch_some size s.mem s.pc (by omega)
    rw [hraw]
    dsimp only
    right
    exact ⟨_, _, rfl, decode_bounds _ raw⟩

/-- Executing an in-bounds decoded instruction on a 128-register file and
a memory of at least 4096 cells never raises a Python IndexError. -/
theorem exec_not_idx {s : State} {d : Decoded} (size : Nat)
    (hb : DecodedBounds d) (h1 : s.regs.length = 128)
    (h2 : 4096 ≤ s.mem.length) :
    execIns s d size ≠ .err .indexError := by
  unfold execIns
  cases d with
  | LC B C =>
    have hB : B < 128 := hb
    dsimp only
    rw [setItem_of_lt s.regs B C (by omega)]
    simp
  | STM B C =>
    obtain ⟨hB, hC⟩ := hb
    dsimp only
    rw [getItem_of_lt s.regs C (by omega)]
    dsimp only
    rw [setItem_of_lt s.mem B _ (by omega)]
    simp
  | LDM B C D =>
    obtain ⟨hC, hD⟩ := hb
    dsimp only
    rw [getItem_of_lt s.regs D (by omega)]
    dsimp only
    by_cases hif : 0 ≤ s.regs.getD D 0 + B ∧
        s.regs.getD D 0 + B < (s.mem.length : Int)
    · rw [if_pos hif]
      rw [getItem_of_lt s.mem _ (by omega)]
      dsimp only
      rw [setItem_of_lt s.regs C _ (by omega)]
      simp
    · rw [if_neg hif]
      simp
  | GE B C D =>
    obtain ⟨hB, hC, hD⟩ := hb
    dsimp only
    rw [getItem_of_lt s.regs B (by omega), getItem_of_lt s.mem C (by omega)]
    dsimp only
    rw [setItem_of_lt s.regs D _ (by omega)]
    simp
  | UNKNOWN A =>
    dsimp only
    simp

/-- Invariant-carrying core of the no-IndexError theorem. -/
theorem no_index_error_aux : ∀ (fuel progLen : Nat) (s : State),
    s.regs.length = 128 → 4096 ≤ s.mem.length →
    progLen + 2048 ≤ s.mem.length →
    ((runFuel fuel progLen s).1.isIndexErr) = false := by
  intro fuel
  induction fuel with
  | zero =>
    intro progLen s h1 h2 h3
    rfl
  | succ n ih =>
    intro progLen s h1 h2 h3
    rw [runFuel_succ]
    by_cases hpc : s.pc < progLen
    · rw [if_pos hpc]
      rcases fetchDecode_cases hpc h3 with hfd | ⟨d, size, hfd, hb⟩
      · rw [hfd]
        rfl
      · rw [hfd]
        dsimp only
        cases hex : execIns s d size with
        | err e =>
          cases e with
          | indexError => exact absurd hex (exec_not_idx size hb h1 h2)
          | unknownOp A pc => rfl
          | outOfBounds addr => rfl
          | notImplemented A => rfl
        | ok s1 =>
          dsimp only
          obtain ⟨hpc1, hr1, hm1⟩ := execIns_ok hex
          exact ih progLen s1 (by omega) (by omega) (by omega)
    · rw [if_neg hpc]
      rfl

/-- In a run started by main (128 zeroed registers, memory of
max(4096, program_length + 2048) cells with the image at address 0), no
Python IndexError can ever occur, for any fuel. -/
theorem no_index_error (fuel : Nat) (prog : List Nat) :
    ((runFuel fuel prog.length (initState prog)).1.isIndexErr) = false := by
  have hload : (load_memory prog).length = max 4096 (prog.length + 2048) := by
    simp [load_memory]
  apply no_index_error_aux
  · simp [initState]
  · show 4096 ≤ (load_memory prog).length
    omega
  · show prog.length + 2048 ≤ (load_memory prog).length
    omega

set_option maxRecDepth 8000 in
/-- Witness for C6: the scenario at the smallest allowed memory length,
101 cells. -/
theorem lc_stm_scenario_witness :
    (parse .LC [3, -5]).map Ins.bytes = some [48, 216, 255, 127] ∧
    (parse .STM [100, 3]).map Ins.bytes = some [73, 198, 0] ∧
    (([48, 216, 255, 127] ++ [73, 198, 0] : List Nat)).length = 7 ∧
    ∃ s : State,
      runFuel 8 7 ⟨List.replicate 128 0,
        ([48, 216, 255, 127, 73, 198, 0] : List Int) ++
          List.replicate (101 - 7) 0, 0⟩ = (.done s, [0, 4]) ∧
      s.pc = 7 ∧ s.mem.get? 100 = some (-5) :=
  lc_stm_scenario 101 (by norm_num)

/-- Claim C10: every unguarded array access of the interpreter is in
bounds: decode masks register indices to 7 bits (below the 128-slot
register file) and the STM target and GE source addresses to 10 bits
(below 1024), while main allocates max(4096, program_length + 2048)
memory cells; hence in a run started by main no access ever raises a
Python IndexError, for any fuel, even though LDM is the only guarded
access. -/
theorem memory_safety :
    (∀ (opcode : Nat) (raw : List Nat), DecodedBounds (decode opcode raw)) ∧
    (∀ (fuel : Nat) (prog : List Nat),
      ((runFuel fuel prog.length (initState prog)).1.isIndexErr) = false) :=
  ⟨decode_bounds, no_index_error⟩

end UVM
